import Mathlib

/-!
Verification model of the tablet-based data-distribution subsystem
(placement registry, migration coordinator, load balancer) of this
repository.  The core implementation files (`replica/tablets.cc`, the
load balancer and the migration coordinator) are referenced by the build
system but are not part of the source snapshot, so the definitions below
are modelled from the specification; the keyspace/feature restrictions at
the end are translated from `docs/architecture/tablets.rst`.
-/

namespace Tablets

/-- Modelled from the spec: replica role, §3 — role ∈ \x7bcurrent, target\x7d. -/
inductive Role
  | current
  | target
deriving DecidableEq, Repr

/-- Modelled from the spec: a replica `(node_id, shard_id, role)`, §3. -/
structure Replica where
  node : Nat
  shard : Nat
  role : Role
deriving DecidableEq, Repr

/-- Modelled from the spec: migration stage enum, §4.3.  The source file
implementing the migration coordinator is missing from the snapshot. -/
inductive Stage
  | none
  | preparing
  | streaming
  | write_both_read_new
  | cleanup
  | done
  | cancelled
deriving DecidableEq, Repr

/-- Modelled from the spec: a Tablet, §3 — table id, half-open token range
`[start, stop)` (the spec writes `[start, end)`; `end` is reserved in Lean),
replica set, migration stage, epoch. -/
structure Tablet where
  table : Nat
  start : Nat
  stop : Nat
  replicas : List Replica
  stage : Stage
  epoch : Nat
deriving DecidableEq, Repr

/-- Number of replicas with role `current`. -/
def curCount (rs : List Replica) : Nat :=
  rs.countP (fun r => r.role == Role.current)

/-- Number of replicas with role `target`. -/
def tgtCount (rs : List Replica) : Nat :=
  rs.countP (fun r => r.role == Role.target)

/-- Whether `(n, s)` appears among the replicas in any role. -/
def hasReplica (n s : Nat) (rs : List Replica) : Bool :=
  rs.any (fun r => r.node == n && r.shard == s)

/-- Whether `(n, s)` appears among the replicas with role `current`. -/
def hasCurrent (n s : Nat) (rs : List Replica) : Bool :=
  rs.any (fun r => r.node == n && r.shard == s && r.role == Role.current)

/-- Remove the first replica equal to `(n, s)` with role `current`. -/
def removeCurrent (n s : Nat) : List Replica → List Replica
  | [] => []
  | r :: rs =>
    if r.node == n && r.shard == s && r.role == Role.current then rs
    else r :: removeCurrent n s rs

/-- Promote every `target` replica to `current` (migration completion). -/
def promote (rs : List Replica) : List Replica :=
  rs.map (fun r => if r.role == Role.target then { r with role := Role.current } else r)

/-- Drop every `target` replica (migration cancellation). -/
def dropTargets (rs : List Replica) : List Replica :=
  rs.filter (fun r => r.role == Role.current)

/-- Modelled from the spec: the token-coverage invariant of a placement
registry entry, §3/§8 — the tablet sequence is ordered, each range is
half-open and nonempty, consecutive ranges abut (gapless, non-overlapping),
the first range starts at `lo` and the last ends at `hi`, so together the
ranges partition `[lo, hi)`. -/
def covers (lo hi : Nat) : List Tablet → Bool
  | [] => lo == hi
  | t :: ts => (t.start == lo) && (decide (lo < t.stop)) && covers t.stop hi ts

/-- Modelled from the spec: splitting a tablet divides its token range into
two halves at the midpoint, each half inheriting the tablet's replica set
(§4.2 step 5). -/
def splitTablet (t : Tablet) : Tablet × Tablet :=
  let mid := (t.start + t.stop) / 2
  ({ t with stop := mid }, { t with start := mid })

/-- Modelled from the spec: merging two adjacent tablets (inverse of split,
§4.2 step 6) — the merged tablet covers both ranges and keeps the shared
replica set. -/
def mergeTablets (a b : Tablet) : Tablet :=
  { a with stop := b.stop }

/-- Modelled from the spec: the replica-count invariant, §3/§8.  At a
quiescent stage (`none`) a tablet has exactly `rf` `current` replicas and no
`target`; while a migration is active and `cleanup` has not committed it has
`rf` `current` plus one `target` (`rf + 1` in total); once `cleanup` commits
the outgoing replica is gone (`rf - 1` `current` plus the `target`). -/
def replicaInv (rf : Nat) (t : Tablet) : Bool :=
  match t.stage with
  | Stage.none => (curCount t.replicas == rf) && (tgtCount t.replicas == 0)
  | Stage.preparing => (curCount t.replicas == rf) && (tgtCount t.replicas == 1)
  | Stage.streaming => (curCount t.replicas == rf) && (tgtCount t.replicas == 1)
  | Stage.write_both_read_new => (curCount t.replicas == rf) && (tgtCount t.replicas == 1)
  | Stage.cleanup => (curCount t.replicas + 1 == rf) && (tgtCount t.replicas == 1)
  | Stage.done => (curCount t.replicas == rf) && (tgtCount t.replicas == 0)
  | Stage.cancelled => (curCount t.replicas == rf) && (tgtCount t.replicas == 0)

/-- The replica-count invariant for every tablet of a registry entry. -/
def allInv (rf : Nat) (ts : List Tablet) : Bool :=
  ts.all (fun t => replicaInv rf t)

/-- Modelled from the spec: a validated registry transition, §3/§4.1 —
split, merge, the committed stage steps of a migration, and replica-swap. -/
inductive Transition
  | split (i : Nat)
  | merge (i : Nat)
  | migStart (i : Nat) (n s : Nat)
  | migAdvance (i : Nat)
  | migCleanup (i : Nat) (n s : Nat)
  | migDone (i : Nat)
  | migCancel (i : Nat)
  | replicaSwap (i : Nat) (oldN oldS newN newS : Nat)
deriving DecidableEq, Repr

/-- Successor stage for the in-flight part of a migration. -/
def advanceStage : Stage → Stage
  | Stage.preparing => Stage.streaming
  | Stage.streaming => Stage.write_both_read_new
  | s => s

/-- Modelled from the spec: the local precondition check run on a transition
before it is proposed to the Topology Log, §4.1 — any transition violating
the coverage or replica-count invariants is rejected before being proposed. -/
def validTransition (ts : List Tablet) : Transition → Bool
  | Transition.split i =>
    match ts[i]? with
    | some t => (t.stage == Stage.none) && decide (t.start + 2 ≤ t.stop)
    | Option.none => false
  | Transition.merge i =>
    match ts[i]?, ts[i+1]? with
    | some a, some b =>
      (a.stage == Stage.none) && (b.stage == Stage.none) && (a.replicas == b.replicas)
    | _, _ => false
  | Transition.migStart i n s =>
    match ts[i]? with
    | some t => (t.stage == Stage.none) && !(hasReplica n s t.replicas)
    | Option.none => false
  | Transition.migAdvance i =>
    match ts[i]? with
    | some t => (t.stage == Stage.preparing) || (t.stage == Stage.streaming)
    | Option.none => false
  | Transition.migCleanup i n s =>
    match ts[i]? with
    | some t => (t.stage == Stage.write_both_read_new) && hasCurrent n s t.replicas
    | Option.none => false
  | Transition.migDone i =>
    match ts[i]? with
    | some t => t.stage == Stage.cleanup
    | Option.none => false
  | Transition.migCancel i =>
    match ts[i]? with
    | some t =>
      (t.stage == Stage.preparing) || (t.stage == Stage.streaming) ||
        (t.stage == Stage.write_both_read_new)
    | Option.none => false
  | Transition.replicaSwap i oldN oldS newN newS =>
    match ts[i]? with
    | some t =>
      (t.stage == Stage.none) && hasCurrent oldN oldS t.replicas &&
        !(hasReplica newN newS t.replicas)
    | Option.none => false

/-- Apply `f` to the `i`-th tablet of the sequence, leaving the rest. -/
def modifyT (f : Tablet → Tablet) : Nat → List Tablet → List Tablet
  | _, [] => []
  | 0, t :: rest => f t :: rest
  | i + 1, t :: rest => t :: modifyT f i rest

/-- Replace the `i`-th tablet by its two split halves (epoch `ep`). -/
def applySplit (ep : Nat) : Nat → List Tablet → List Tablet
  | _, [] => []
  | 0, t :: rest =>
    { (splitTablet t).1 with epoch := ep } :: { (splitTablet t).2 with epoch := ep } :: rest
  | i + 1, t :: rest => t :: applySplit ep i rest

/-- Replace the `i`-th and `(i+1)`-th tablets by their merge (epoch `ep`). -/
def applyMerge (ep : Nat) : Nat → List Tablet → List Tablet
  | _, [] => []
  | 0, a :: b :: rest => { mergeTablets a b with epoch := ep } :: rest
  | 0, ts => ts
  | i + 1, t :: rest => t :: applyMerge ep i rest

/-- Begin a migration on a tablet: allocate the target replica and commit
stage `preparing` (§4.3). -/
def tabletMigStart (ep n s : Nat) (t : Tablet) : Tablet :=
  { t with replicas := t.replicas ++ [⟨n, s, Role.target⟩],
           stage := Stage.preparing, epoch := ep }

/-- Cancel a migration on a tablet: release the target allocation and
restore the tablet to `none` with no residual replicas (§4.3). -/
def tabletMigCancel (ep : Nat) (t : Tablet) : Tablet :=
  { t with replicas := dropTargets t.replicas, stage := Stage.none, epoch := ep }

/-- Modelled from the spec: the state change a committed transition performs
on the tablet sequence, §3/§4.3. -/
def applyTransition (ep : Nat) (ts : List Tablet) : Transition → List Tablet
  | Transition.split i => applySplit ep i ts
  | Transition.merge i => applyMerge ep i ts
  | Transition.migStart i n s => modifyT (tabletMigStart ep n s) i ts
  | Transition.migAdvance i =>
    modifyT (fun t => { t with stage := advanceStage t.stage, epoch := ep }) i ts
  | Transition.migCleanup i n s =>
    modifyT (fun t => { t with replicas := removeCurrent n s t.replicas,
                               stage := Stage.cleanup, epoch := ep }) i ts
  | Transition.migDone i =>
    modifyT (fun t => { t with replicas := promote t.replicas,
                               stage := Stage.none, epoch := ep }) i ts
  | Transition.migCancel i => modifyT (tabletMigCancel ep) i ts
  | Transition.replicaSwap i oldN oldS newN newS =>
    modifyT (fun t => { t with
      replicas := removeCurrent oldN oldS t.replicas ++ [⟨newN, newS, Role.current⟩],
      epoch := ep }) i ts

/-- Modelled from the spec: the per-table Placement Registry state — the
ordered tablet sequence plus the current committed epoch, §4.1. -/
structure Registry where
  tablets : List Tablet
  epoch : Nat
deriving DecidableEq, Repr

/-- Result of `apply`: a committed new registry snapshot, a `Conflict`
(optimistic-concurrency epoch mismatch), or a local invariant rejection. -/
inductive ApplyResult
  | committed (r : Registry)
  | conflict
  | invalid
deriving DecidableEq, Repr

/-- Modelled from the spec: `apply(table, epoch, transition)`, §4.1 —
applies a validated transition only if `epoch` matches the registry's
current epoch, committing a snapshot with a strictly larger epoch; on an
epoch mismatch it fails with `Conflict` and changes nothing; an invalid
transition is rejected locally before reaching the Topology Log. -/
def Registry.apply (r : Registry) (epoch : Nat) (tr : Transition) : ApplyResult :=
  if epoch == r.epoch then
    if validTransition r.tablets tr then
      ApplyResult.committed ⟨applyTransition (r.epoch + 1) r.tablets tr, r.epoch + 1⟩
    else ApplyResult.invalid
  else ApplyResult.conflict

/-- Registry states reachable from `r0` through committed transitions. -/
inductive Reachable : Registry → Registry → Prop
  | refl (r : Registry) : Reachable r r
  | step {r0 r r' : Registry} (e : Nat) (tr : Transition) :
      Reachable r0 r → r.apply e tr = ApplyResult.committed r' → Reachable r0 r'

/-- Modelled from the spec: the stage commits the Migration Coordinator may
durably record, §4.3 — the forward chain `none → preparing → streaming →
write_both_read_new → cleanup → done` with no skips, plus cancellation from
`preparing`, `streaming`, or `write_both_read_new` only. -/
def allowedCommit : Stage → Stage → Bool
  | Stage.none, Stage.preparing => true
  | Stage.preparing, Stage.streaming => true
  | Stage.streaming, Stage.write_both_read_new => true
  | Stage.write_both_read_new, Stage.cleanup => true
  | Stage.cleanup, Stage.done => true
  | Stage.preparing, Stage.cancelled => true
  | Stage.streaming, Stage.cancelled => true
  | Stage.write_both_read_new, Stage.cancelled => true
  | _, _ => false

/-- Stages reachable from `a` through committed stage changes. -/
inductive StageReach : Stage → Stage → Prop
  | refl (s : Stage) : StageReach s s
  | step {a b c : Stage} : StageReach a b → allowedCommit b c = true → StageReach a c

/-- Outcome classification of an administrative cancellation request. -/
inductive CancelReply
  | accepted
  | irreversible
  | notInFlight
deriving DecidableEq, Repr

/-- Modelled from the spec: administrative cancellation, §4.3/§5 — accepted
before `cleanup` begins; once `cleanup` has committed the migration is past
the point of no return and the request is rejected as irreversible. -/
def requestCancel : Stage → CancelReply
  | Stage.preparing => CancelReply.accepted
  | Stage.streaming => CancelReply.accepted
  | Stage.write_both_read_new => CancelReply.accepted
  | Stage.cleanup => CancelReply.irreversible
  | Stage.done => CancelReply.irreversible
  | _ => CancelReply.notInFlight

/-- Observable events of one migration: durable stage commits to the
Topology Log, and the two local side effects the spec names (starting a
streaming transfer, deleting the outgoing replica's files). -/
inductive Event
  | commit (s : Stage)
  | streamStart
  | fileDelete
deriving DecidableEq, Repr

/-- `k` streaming attempts, each a `streamStart` side effect. -/
def attemptEvents : Nat → List Event
  | 0 => []
  | k + 1 => Event.streamStart :: attemptEvents k

/-- Modelled from the spec: whether one of at most `tries` streaming
attempts succeeds, §4.3 — the `i`-th attempt's outcome is the `i`-th entry
of `outcomes` (an exhausted oracle means the attempt failed). -/
def firstSuccess : Nat → List Bool → Bool
  | 0, _ => false
  | _ + 1, [] => false
  | t + 1, o :: os => o || firstSuccess t os

/-- Number of streaming attempts actually performed: the coordinator stops
at the first success and never exceeds the retry ceiling `tries`. -/
def attemptsUsed : Nat → List Bool → Nat
  | 0, _ => 0
  | t + 1, [] => t + 1
  | t + 1, o :: os => if o then 1 else 1 + attemptsUsed t os

/-- Events committed after a confirmed-complete transfer: reads switch to
the target, cleanup commits, the old files are deleted, the migration is
done. -/
def successTail : List Event :=
  [Event.commit Stage.write_both_read_new, Event.commit Stage.cleanup,
   Event.fileDelete, Event.commit Stage.done]

/-- Modelled from the spec: the streaming phase of the Migration
Coordinator, §4.3 — invoke the Streamer with bounded retries; on success
continue through `write_both_read_new`, `cleanup`, `done`; exhausted retries
degrade to `cancelled`. -/
def runStreamingPhase (tries : Nat) (outcomes : List Bool) : Stage × List Event :=
  let evs := attemptEvents (attemptsUsed tries outcomes)
  if firstSuccess tries outcomes then (Stage.done, evs ++ successTail)
  else (Stage.cancelled, evs ++ [Event.commit Stage.cancelled])

/-- Modelled from the spec: the Migration Coordinator's resume routine,
§4.3/§9 — re-read the last committed stage and continue deterministically
from there, committing each stage change before its local side effect. -/
def resumeFrom (s : Stage) (tries : Nat) (outcomes : List Bool) : Stage × List Event :=
  match s with
  | Stage.none =>
    let r := runStreamingPhase tries outcomes
    (r.1, Event.commit Stage.preparing :: Event.commit Stage.streaming :: r.2)
  | Stage.preparing =>
    let r := runStreamingPhase tries outcomes
    (r.1, Event.commit Stage.streaming :: r.2)
  | Stage.streaming => runStreamingPhase tries outcomes
  | Stage.write_both_read_new =>
    (Stage.done, [Event.commit Stage.cleanup, Event.fileDelete, Event.commit Stage.done])
  | Stage.cleanup => (Stage.done, [Event.fileDelete, Event.commit Stage.done])
  | Stage.done => (Stage.done, [])
  | Stage.cancelled => (Stage.cancelled, [])

/-- A full migration driven from scratch (last committed stage `none`). -/
def migRun (tries : Nat) (outcomes : List Bool) : Stage × List Event :=
  resumeFrom Stage.none tries outcomes

/-- The stages committed along a trace, in order. -/
def commitsOf (evs : List Event) : List Stage :=
  evs.filterMap (fun e => match e with
    | Event.commit s => some s
    | _ => Option.none)

/-- Whether a commit sequence follows the allowed stage order starting from
`prev`, committing no stage out of order and skipping none. -/
def chainFrom (prev : Stage) : List Stage → Bool
  | [] => true
  | s :: rest => allowedCommit prev s && chainFrom s rest

/-- Whether every local side effect in a trace happens only after the commit
of its stage: `streamStart` needs `streaming` committed earlier, `fileDelete`
needs `cleanup` committed earlier. -/
def effectsOk : List Event → Bool → Bool → Bool
  | [], _, _ => true
  | Event.commit s :: rest, str, cl =>
    effectsOk rest (str || (s == Stage.streaming)) (cl || (s == Stage.cleanup))
  | Event.streamStart :: rest, str, cl => str && effectsOk rest str cl
  | Event.fileDelete :: rest, str, cl => cl && effectsOk rest str cl

/-- Index of the first maximal element of a load vector (ties break to the
lowest index, §4.2 step 7). -/
def idxOfMax : List Nat → Nat
  | [] => 0
  | [_] => 0
  | x :: y :: rest =>
    let k := idxOfMax (y :: rest)
    if x < (y :: rest).getD k 0 then k + 1 else 0

/-- Index of the first minimal element of a load vector (ties break to the
lowest index, §4.2 step 7). -/
def idxOfMin : List Nat → Nat
  | [] => 0
  | [_] => 0
  | x :: y :: rest =>
    let k := idxOfMin (y :: rest)
    if (y :: rest).getD k 0 < x then k + 1 else 0

/-- Imbalance score of a load vector: spread between the most- and
least-loaded node (a normalized deviation in the spec, §4.2 step 2). -/
def imbalance (loads : List Nat) : Nat :=
  loads.foldr Nat.max 0 - loads.foldr (fun a b => Nat.min a b) (loads.getD 0 0)

/-- Move one tablet's worth of load from node `i` to node `j`. -/
def moveLoad (loads : List Nat) (i j : Nat) : List Nat :=
  (loads.set i (loads.getD i 0 - 1)).set j (loads.getD j 0 + 1)

/-- A proposed balancing migration: source node index, destination node
index. -/
structure Proposal where
  src : Nat
  dst : Nat
deriving DecidableEq, Repr

/-- Modelled from the spec: one Load Balancer round over the observed load
vector, §4.2 — greedily pick the most-overloaded source and least-loaded
destination and propose the move only if the expected imbalance reduction
exceeds the hysteresis epsilon `eps`. -/
def lbRound (eps : Nat) (loads : List Nat) : List Proposal :=
  let i := idxOfMax loads
  let j := idxOfMin loads
  if i != j && decide (imbalance (moveLoad loads i j) + eps < imbalance loads) then
    [⟨i, j⟩]
  else []

/-- The load vector after one round's proposals complete. -/
def applyRound (eps : Nat) (loads : List Nat) : List Nat :=
  match lbRound eps loads with
  | [] => loads
  | p :: _ => moveLoad loads p.src p.dst

/-- Replica count a registry entry places on node `n` (`current` role). -/
def nodeLoad (ts : List Tablet) (n : Nat) : Nat :=
  (ts.map (fun t => t.replicas.countP (fun r => r.node == n))).sum

/-- Observed load vector of a registry entry over nodes `0 .. nNodes-1`. -/
def loadsOf (ts : List Tablet) (nNodes : Nat) : List Nat :=
  (List.range nNodes).map (nodeLoad ts)

/-- The replica set shared by every tablet of the §8 scenario-1 registry:
one replica on each of the three nodes, all `current`. -/
def threeNodeReplicas : List Replica :=
  [⟨0, 0, Role.current⟩, ⟨1, 0, Role.current⟩, ⟨2, 0, Role.current⟩]

/-- Modelled from the spec: scenario 1 of §8 — 4 tablets covering the full
token space (taken as `[0, 16)`), RF = 3, replicas on 3 equally loaded
nodes. -/
def scenarioEntry : List Tablet :=
  [⟨0, 0, 4, threeNodeReplicas, Stage.none, 0⟩,
   ⟨0, 4, 8, threeNodeReplicas, Stage.none, 0⟩,
   ⟨0, 8, 12, threeNodeReplicas, Stage.none, 0⟩,
   ⟨0, 12, 16, threeNodeReplicas, Stage.none, 0⟩]

/-- Keyspace-level features whose availability depends on the keyspace's
tablets setting (docs/architecture/tablets.rst, Limitations section). -/
inductive Feature
  | counters
  | changeDataCapture
  | materializedViews
  | secondaryIndexes
deriving DecidableEq, Repr

/-- Schema-level keyspace options fixed at creation time. -/
structure KeyspaceOpts where
  replicationFactor : Nat
  tabletsEnabled : Bool
deriving DecidableEq, Repr

/-- Translated from docs/architecture/tablets.rst (Limitations and
Unsupported Features): with tablets enabled, Counters and CDC are
unsupported; Materialized Views and Secondary Indexes are available only
under the experimental views-with-tablets flag; with tablets disabled all
four are available. -/
def featureAvailable (tabletsEnabled experimentalViews : Bool) : Feature → Bool
  | Feature.counters => !tabletsEnabled
  | Feature.changeDataCapture => !tabletsEnabled
  | Feature.materializedViews => !tabletsEnabled || experimentalViews
  | Feature.secondaryIndexes => !tabletsEnabled || experimentalViews

/-- Result of an ALTER KEYSPACE request in the model. -/
inductive AlterResult
  | altered (ks : KeyspaceOpts)
  | rejected
deriving DecidableEq, Repr

/-- Translated from docs/architecture/tablets.rst (Enabling Tablets
warning): a keyspace cannot be ALTERed to enable or disable tablets — any
request changing the tablets setting is rejected; other options may
change. -/
def alterKeyspace (ks : KeyspaceOpts) (newRF : Option Nat) (newTablets : Option Bool) :
    AlterResult :=
  match newTablets with
  | some b =>
    if b == ks.tabletsEnabled then
      AlterResult.altered { ks with replicationFactor := newRF.getD ks.replicationFactor }
    else AlterResult.rejected
  | Option.none =>
    AlterResult.altered { ks with replicationFactor := newRF.getD ks.replicationFactor }

/-- Translated from docs/architecture/tablets.rst: the only way to change
the tablet setting is to DROP the keyspace and recreate it with the desired
`tablets = ...` option. -/
def dropAndRecreate (rf : Nat) (tabletsEnabled : Bool) : KeyspaceOpts :=
  ⟨rf, tabletsEnabled⟩

lemma curCount_append (a b : List Replica) :
    curCount (a ++ b) = curCount a + curCount b := by
  simp [curCount, List.countP_append]

lemma tgtCount_append (a b : List Replica) :
    tgtCount (a ++ b) = tgtCount a + tgtCount b := by
  simp [tgtCount, List.countP_append]

lemma curCount_snoc_target (rs : List Replica) (n s : Nat) :
    curCount (rs ++ [⟨n, s, Role.target⟩]) = curCount rs := by
  simp [curCount_append, curCount, List.countP_cons]

lemma tgtCount_snoc_target (rs : List Replica) (n s : Nat) :
    tgtCount (rs ++ [⟨n, s, Role.target⟩]) = tgtCount rs + 1 := by
  simp [tgtCount_append, tgtCount, List.countP_cons]

lemma curCount_snoc_current (rs : List Replica) (n s : Nat) :
    curCount (rs ++ [⟨n, s, Role.current⟩]) = curCount rs + 1 := by
  simp [curCount_append, curCount, List.countP_cons]

lemma tgtCount_snoc_current (rs : List Replica) (n s : Nat) :
    tgtCount (rs ++ [⟨n, s, Role.current⟩]) = tgtCount rs := by
  simp [tgtCount_append, tgtCount, List.countP_cons]

lemma removeCurrent_cur (n s : Nat) (rs : List Replica)
    (h : hasCurrent n s rs = true) :
    curCount (removeCurrent n s rs) + 1 = curCount rs := by
  induction rs with
  | nil => simp [hasCurrent] at h
  | cons r rs ih =>
    rw [removeCurrent]
    by_cases hr : (r.node == n && r.shard == s && r.role == Role.current) = true
    · rw [if_pos hr]
      have hrole : r.role = Role.current := by
        simp only [Bool.and_eq_true, beq_iff_eq] at hr
        exact hr.2
      simp [curCount, List.countP_cons, hrole]
    · rw [if_neg hr]
      have h' : hasCurrent n s rs = true := by
        simp only [hasCurrent, List.any_cons, Bool.or_eq_true] at h
        rcases h with hc | hc
        · exact absurd hc hr
        · simpa [hasCurrent] using hc
      have := ih h'
      simp only [curCount, List.countP_cons] at this ⊢
      omega

lemma removeCurrent_tgt (n s : Nat) (rs : List Replica) :
    tgtCount (removeCurrent n s rs) = tgtCount rs := by
  induction rs with
  | nil => simp [removeCurrent]
  | cons r rs ih =>
    rw [removeCurrent]
    by_cases hr : (r.node == n && r.shard == s && r.role == Role.current) = true
    · rw [if_pos hr]
      have hrole : r.role = Role.current := by
        simp only [Bool.and_eq_true, beq_iff_eq] at hr
        exact hr.2
      simp [tgtCount, List.countP_cons, hrole]
    · rw [if_neg hr]
      simp only [tgtCount, List.countP_cons] at ih ⊢
      omega

lemma promote_cur (rs : List Replica) :
    curCount (promote rs) = curCount rs + tgtCount rs := by
  induction rs with
  | nil => simp [promote, curCount, tgtCount]
  | cons r rs ih =>
    obtain ⟨nn, ss, rr⟩ := r
    cases rr <;>
      simp [promote, curCount, tgtCount, List.countP_cons] at ih ⊢ <;> omega

lemma promote_tgt (rs : List Replica) : tgtCount (promote rs) = 0 := by
  induction rs with
  | nil => simp [promote, tgtCount]
  | cons r rs ih =>
    obtain ⟨nn, ss, rr⟩ := r
    cases rr <;> simpa [promote, tgtCount, List.countP_cons] using ih

lemma dropTargets_cur (rs : List Replica) :
    curCount (dropTargets rs) = curCount rs := by
  induction rs with
  | nil => simp [dropTargets]
  | cons r rs ih =>
    obtain ⟨nn, ss, rr⟩ := r
    cases rr <;>
      simp [dropTargets, List.filter_cons, curCount, List.countP_cons] at ih ⊢ <;>
      omega

lemma dropTargets_tgt (rs : List Replica) : tgtCount (dropTargets rs) = 0 := by
  induction rs with
  | nil => simp [dropTargets, tgtCount]
  | cons r rs ih =>
    obtain ⟨nn, ss, rr⟩ := r
    cases rr <;>
      simpa [dropTargets, List.filter_cons, tgtCount, List.countP_cons] using ih

lemma dropTargets_of_quiescent (rs : List Replica) (h : tgtCount rs = 0) :
    dropTargets rs = rs := by
  induction rs with
  | nil => simp [dropTargets]
  | cons r rs ih =>
    obtain ⟨nn, ss, rr⟩ := r
    cases rr with
    | current =>
      have h' : tgtCount rs = 0 := by
        simpa [tgtCount, List.countP_cons] using h
      simpa [dropTargets, List.filter_cons] using ih h'
    | target => simp [tgtCount, List.countP_cons] at h

lemma mem_of_idx : ∀ (ts : List Tablet) (i : Nat) (t : Tablet),
    ts[i]? = some t → t ∈ ts := by
  intro ts
  induction ts with
  | nil => intro i t h; simp at h
  | cons a rest ih =>
    intro i t h
    cases i with
    | zero => simp at h; simp [h]
    | succ i =>
      simp only [List.getElem?_cons_succ] at h
      exact List.mem_cons_of_mem a (ih i t h)

lemma covers_cons (lo hi : Nat) (t : Tablet) (ts : List Tablet) :
    covers lo hi (t :: ts) = true ↔
      t.start = lo ∧ lo < t.stop ∧ covers t.stop hi ts = true := by
  simp [covers, Bool.and_eq_true, beq_iff_eq, decide_eq_true_eq, and_assoc]

lemma covers_modifyT (f : Tablet → Tablet)
    (hf : ∀ t, (f t).start = t.start ∧ (f t).stop = t.stop) :
    ∀ (ts : List Tablet) (i lo hi : Nat),
      covers lo hi ts = true → covers lo hi (modifyT f i ts) = true := by
  intro ts
  induction ts with
  | nil => intro i lo hi h; cases i <;> simpa [modifyT] using h
  | cons t rest ih =>
    intro i lo hi h
    rw [covers_cons] at h
    obtain ⟨h1, h2, h3⟩ := h
    cases i with
    | zero =>
      rw [modifyT, covers_cons, (hf t).1, (hf t).2]
      exact ⟨h1, h2, h3⟩
    | succ i =>
      rw [modifyT, covers_cons]
      exact ⟨h1, h2, ih i t.stop hi h3⟩

lemma covers_applySplit (ep : Nat) :
    ∀ (ts : List Tablet) (i lo hi : Nat),
      covers lo hi ts = true →
      (∀ t, ts[i]? = some t → t.start + 2 ≤ t.stop) →
      covers lo hi (applySplit ep i ts) = true := by
  intro ts
  induction ts with
  | nil => intro i lo hi h _; cases i <;> simpa [applySplit] using h
  | cons t rest ih =>
    intro i lo hi h hw
    rw [covers_cons] at h
    obtain ⟨h1, h2, h3⟩ := h
    cases i with
    | zero =>
      have hwt : t.start + 2 ≤ t.stop := hw t (by simp)
      rw [applySplit]
      rw [covers_cons]
      refine ⟨by simpa [splitTablet] using h1, ?_, ?_⟩
      · simp only [splitTablet]
        omega
      · rw [covers_cons]
        refine ⟨by simp [splitTablet], ?_, ?_⟩
        · simp only [splitTablet]
          omega
        · simpa [splitTablet] using h3
    | succ i =>
      rw [applySplit, covers_cons]
      refine ⟨h1, h2, ih i t.stop hi h3 ?_⟩
      intro u hu
      exact hw u (by simpa using hu)

lemma covers_applyMerge (ep : Nat) :
    ∀ (ts : List Tablet) (i lo hi : Nat),
      covers lo hi ts = true → covers lo hi (applyMerge ep i ts) = true := by
  intro ts
  induction ts with
  | nil => intro i lo hi h; cases i <;> simpa [applyMerge] using h
  | cons t rest ih =>
    intro i lo hi h
    rw [covers_cons] at h
    obtain ⟨h1, h2, h3⟩ := h
    cases i with
    | zero =>
      cases rest with
      | nil =>
        show covers lo hi (t :: []) = true
        rw [covers_cons]
        exact ⟨h1, h2, h3⟩
      | cons b rest2 =>
        rw [covers_cons] at h3
        obtain ⟨g1, g2, g3⟩ := h3
        rw [applyMerge, covers_cons]
        refine ⟨by simpa [mergeTablets] using h1, ?_, ?_⟩
        · simp only [mergeTablets]
          omega
        · simpa [mergeTablets] using g3
    | succ i =>
      rw [applyMerge, covers_cons]
      exact ⟨h1, h2, ih i t.stop hi h3⟩

lemma covers_applyTransition (N ep : Nat) (ts : List Tablet) (tr : Transition)
    (hv : validTransition ts tr = true) (hc : covers 0 N ts = true) :
    covers 0 N (applyTransition ep ts tr) = true := by
  cases tr with
  | split i =>
    refine covers_applySplit ep ts i 0 N hc ?_
    intro t ht
    rw [validTransition, ht] at hv
    simp only [Bool.and_eq_true, beq_iff_eq, decide_eq_true_eq] at hv
    exact hv.2
  | merge i => exact covers_applyMerge ep ts i 0 N hc
  | migStart i n s =>
    simp only [applyTransition]
    refine covers_modifyT _ ?_ ts i 0 N hc
    intro t
    exact ⟨rfl, rfl⟩
  | migAdvance i =>
    simp only [applyTransition]
    refine covers_modifyT _ ?_ ts i 0 N hc
    intro t
    exact ⟨rfl, rfl⟩
  | migCleanup i n s =>
    simp only [applyTransition]
    refine covers_modifyT _ ?_ ts i 0 N hc
    intro t
    exact ⟨rfl, rfl⟩
  | migDone i =>
    simp only [applyTransition]
    refine covers_modifyT _ ?_ ts i 0 N hc
    intro t
    exact ⟨rfl, rfl⟩
  | migCancel i =>
    simp only [applyTransition]
    refine covers_modifyT _ ?_ ts i 0 N hc
    intro t
    exact ⟨rfl, rfl⟩
  | replicaSwap i a b c d =>
    simp only [applyTransition]
    refine covers_modifyT _ ?_ ts i 0 N hc
    intro t
    exact ⟨rfl, rfl⟩

lemma allInv_iff (rf : Nat) (ts : List Tablet) :
    allInv rf ts = true ↔ ∀ t ∈ ts, replicaInv rf t = true := by
  simp [allInv, List.all_eq_true]

lemma allInv_modifyT (rf : Nat) (f : Tablet → Tablet) :
    ∀ (ts : List Tablet) (i : Nat),
      allInv rf ts = true →
      (∀ t, ts[i]? = some t → replicaInv rf (f t) = true) →
      allInv rf (modifyT f i ts) = true := by
  intro ts
  induction ts with
  | nil => intro i h _; cases i <;> simp [allInv, modifyT]
  | cons t rest ih =>
    intro i h hf
    rw [allInv_iff] at h
    cases i with
    | zero =>
      rw [modifyT, allInv_iff]
      intro u hu
      rcases List.mem_cons.1 hu with hu | hu
      · subst hu; exact hf t (by simp)
      · exact h u (List.mem_cons_of_mem t hu)
    | succ i =>
      rw [modifyT, allInv_iff]
      intro u hu
      rcases List.mem_cons.1 hu with hu | hu
      · subst hu; exact h u (by simp)
      · have hrest : allInv rf (modifyT f i rest) = true := by
          refine ih i ?_ ?_
          · rw [allInv_iff]; intro v hv; exact h v (List.mem_cons_of_mem t hv)
          · intro v hv; exact hf v (by simpa using hv)
        exact (allInv_iff rf _).1 hrest u hu

lemma replicaInv_range_irrelevant (rf : Nat) (t : Tablet) (a b ep : Nat) :
    replicaInv rf { t with start := a, stop := b, epoch := ep } = replicaInv rf t := rfl

lemma allInv_applySplit (rf ep : Nat) :
    ∀ (ts : List Tablet) (i : Nat),
      allInv rf ts = true → allInv rf (applySplit ep i ts) = true := by
  intro ts
  induction ts with
  | nil => intro i h; cases i <;> simp [allInv, applySplit]
  | cons t rest ih =>
    intro i h
    rw [allInv_iff] at h
    cases i with
    | zero =>
      rw [applySplit, allInv_iff]
      intro u hu
      have hti : replicaInv rf t = true := h t (by simp)
      rcases List.mem_cons.1 hu with hu | hu
      · subst hu
        simpa [splitTablet, replicaInv] using hti
      rcases List.mem_cons.1 hu with hu | hu
      · subst hu
        simpa [splitTablet, replicaInv] using hti
      · exact h u (List.mem_cons_of_mem t hu)
    | succ i =>
      rw [applySplit, allInv_iff]
      intro u hu
      rcases List.mem_cons.1 hu with hu | hu
      · subst hu; exact h u (by simp)
      · have hrest : allInv rf (applySplit ep i rest) = true := by
          refine ih i ?_
          rw [allInv_iff]; intro v hv; exact h v (List.mem_cons_of_mem t hv)
        exact (allInv_iff rf _).1 hrest u hu

lemma allInv_applyMerge (rf ep : Nat) :
    ∀ (ts : List Tablet) (i : Nat),
      allInv rf ts = true → allInv rf (applyMerge ep i ts) = true := by
  intro ts
  induction ts with
  | nil => intro i h; cases i <;> simp [allInv, applyMerge]
  | cons t rest ih =>
    intro i h
    rw [allInv_iff] at h
    cases i with
    | zero =>
      cases rest with
      | nil =>
        show allInv rf (t :: []) = true
        rw [allInv_iff]
        intro u hu
        exact h u hu
      | cons b rest2 =>
        rw [applyMerge, allInv_iff]
        intro u hu
        rcases List.mem_cons.1 hu with hu | hu
        · subst hu
          have hta : replicaInv rf t = true := h t (by simp)
          simpa [mergeTablets, replicaInv] using hta
        · exact h u (List.mem_cons_of_mem t (List.mem_cons_of_mem b hu))
    | succ i =>
      rw [applyMerge, allInv_iff]
      intro u hu
      rcases List.mem_cons.1 hu with hu | hu
      · subst hu; exact h u (by simp)
      · have hrest : allInv rf (applyMerge ep i rest) = true := by
          refine ih i ?_
          rw [allInv_iff]; intro v hv; exact h v (List.mem_cons_of_mem t hv)
        exact (allInv_iff rf _).1 hrest u hu

lemma allInv_applyTransition (rf ep : Nat) (ts : List Tablet) (tr : Transition)
    (hv : validTransition ts tr = true) (h : allInv rf ts = true) :
    allInv rf (applyTransition ep ts tr) = true := by
  cases tr with
  | split i =>
    simp only [applyTransition]
    exact allInv_applySplit rf ep ts i h
  | merge i =>
    simp only [applyTransition]
    exact allInv_applyMerge rf ep ts i h
  | migStart i n s =>
    simp only [applyTransition]
    refine allInv_modifyT rf _ ts i h ?_
    intro t ht
    rw [validTransition, ht] at hv
    simp only [Bool.and_eq_true, beq_iff_eq] at hv
    have hit : replicaInv rf t = true := (allInv_iff rf ts).1 h t (mem_of_idx ts i t ht)
    simp only [replicaInv, hv.1, Bool.and_eq_true, beq_iff_eq] at hit
    simp [tabletMigStart, replicaInv, curCount_snoc_target, tgtCount_snoc_target,
      hit.1, hit.2]
  | migAdvance i =>
    simp only [applyTransition]
    refine allInv_modifyT rf _ ts i h ?_
    intro t ht
    rw [validTransition, ht] at hv
    simp only [Bool.or_eq_true, beq_iff_eq] at hv
    have hit : replicaInv rf t = true := (allInv_iff rf ts).1 h t (mem_of_idx ts i t ht)
    rcases hv with hstage | hstage <;>
      simp only [replicaInv, hstage, advanceStage, Bool.and_eq_true, beq_iff_eq]
        at hit ⊢ <;>
      exact ⟨hit.1, hit.2⟩
  | migCleanup i n s =>
    simp only [applyTransition]
    refine allInv_modifyT rf _ ts i h ?_
    intro t ht
    rw [validTransition, ht] at hv
    simp only [Bool.and_eq_true, beq_iff_eq] at hv
    have hit : replicaInv rf t = true := (allInv_iff rf ts).1 h t (mem_of_idx ts i t ht)
    simp only [replicaInv, hv.1, Bool.and_eq_true, beq_iff_eq] at hit
    have hcur := removeCurrent_cur n s t.replicas hv.2
    have htgt := removeCurrent_tgt n s t.replicas
    simp only [replicaInv, Bool.and_eq_true, beq_iff_eq]
    constructor
    · omega
    · omega
  | migDone i =>
    simp only [applyTransition]
    refine allInv_modifyT rf _ ts i h ?_
    intro t ht
    rw [validTransition, ht] at hv
    simp only [beq_iff_eq] at hv
    have hit : replicaInv rf t = true := (allInv_iff rf ts).1 h t (mem_of_idx ts i t ht)
    simp only [replicaInv, hv, Bool.and_eq_true, beq_iff_eq] at hit
    have hcur := promote_cur t.replicas
    have htgt := promote_tgt t.replicas
    simp only [replicaInv, Bool.and_eq_true, beq_iff_eq]
    constructor
    · omega
    · omega
  | migCancel i =>
    simp only [applyTransition]
    refine allInv_modifyT rf _ ts i h ?_
    intro t ht
    rw [validTransition, ht] at hv
    simp only [Bool.or_eq_true, beq_iff_eq] at hv
    have hit : replicaInv rf t = true := (allInv_iff rf ts).1 h t (mem_of_idx ts i t ht)
    have hcur := dropTargets_cur t.replicas
    have htgt := dropTargets_tgt t.replicas
    rcases hv with (hstage | hstage) | hstage <;>
      simp only [replicaInv, hstage, tabletMigCancel, Bool.and_eq_true, beq_iff_eq]
        at hit ⊢ <;>
      exact ⟨by omega, by omega⟩
  | replicaSwap i oldN oldS newN newS =>
    simp only [applyTransition]
    refine allInv_modifyT rf _ ts i h ?_
    intro t ht
    rw [validTransition, ht] at hv
    simp only [Bool.and_eq_true, beq_iff_eq] at hv
    have hit : replicaInv rf t = true := (allInv_iff rf ts).1 h t (mem_of_idx ts i t ht)
    simp only [replicaInv, hv.1.1, Bool.and_eq_true, beq_iff_eq] at hit
    have hcur := removeCurrent_cur oldN oldS t.replicas hv.1.2
    have htgt := removeCurrent_tgt oldN oldS t.replicas
    simp only [replicaInv, hv.1.1, curCount_snoc_current, tgtCount_snoc_current,
      Bool.and_eq_true, beq_iff_eq]
    constructor
    · omega
    · omega

lemma apply_committed {r r' : Registry} {e : Nat} {tr : Transition}
    (h : r.apply e tr = ApplyResult.committed r') :
    validTransition r.tablets tr = true ∧
      r' = ⟨applyTransition (r.epoch + 1) r.tablets tr, r.epoch + 1⟩ := by
  unfold Registry.apply at h
  split_ifs at h with h1 h2
  · exact ⟨h2, (ApplyResult.committed.inj h).symm⟩

lemma allInv_reachable (rf : Nat) (r0 r : Registry) (hr : Reachable r0 r)
    (h0 : allInv rf r0.tablets = true) : allInv rf r.tablets = true := by
  induction hr with
  | refl => exact h0
  | step e tr hreach happly ih =>
    obtain ⟨hv, heq⟩ := apply_committed happly
    subst heq
    exact allInv_applyTransition rf _ _ tr hv ih

lemma replicaInv_spec (rf : Nat) (t : Tablet) (h : replicaInv rf t = true) :
    (t.stage = Stage.none → curCount t.replicas = rf ∧ tgtCount t.replicas = 0) ∧
    ((t.stage = Stage.preparing ∨ t.stage = Stage.streaming ∨
        t.stage = Stage.write_both_read_new) →
      curCount t.replicas = rf ∧ tgtCount t.replicas = 1) ∧
    (curCount t.replicas + tgtCount t.replicas = rf ∨
      curCount t.replicas + tgtCount t.replicas = rf + 1) := by
  cases hstage : t.stage <;>
    simp only [replicaInv, hstage, Bool.and_eq_true, beq_iff_eq] at h <;>
    obtain ⟨h1, h2⟩ := h <;>
    refine ⟨?_, ?_, ?_⟩ <;>
    first
      | (intro hd
         first
           | (exact ⟨h1, h2⟩)
           | (rcases hd with hd | hd | hd <;> exact Stage.noConfusion hd))
      | omega

lemma allowedCommit_from_cleanup {b c : Stage}
    (hb : b = Stage.cleanup ∨ b = Stage.done) (hc : allowedCommit b c = true) :
    c = Stage.cleanup ∨ c = Stage.done := by
  rcases hb with hb | hb <;> subst hb <;> cases c <;>
    simp_all [allowedCommit]

lemma stageReach_from_cleanup {s : Stage} (h : StageReach Stage.cleanup s) :
    s = Stage.cleanup ∨ s = Stage.done := by
  generalize ha : Stage.cleanup = a at h
  induction h with
  | refl => exact Or.inl rfl
  | step hr hc ih =>
    subst ha
    exact allowedCommit_from_cleanup ih hc

/-- C1: for every table and every committed epoch of the Placement Registry
(any state reachable from an initial state satisfying the coverage
invariant through committed `apply` calls), the tablet sequence is ordered,
gapless, non-overlapping, and spans the full token space `[0, N)`; every
committed transition — split, merge, the migration stage steps, and
replica-swap — preserves this. -/
theorem coverage_invariant_reachable (N : Nat) (r0 r : Registry)
    (hr : Reachable r0 r) (h0 : covers 0 N r0.tablets = true) :
    covers 0 N r.tablets = true := by
  induction hr with
  | refl => exact h0
  | step e tr hreach happly ih =>
    obtain ⟨hv, heq⟩ := apply_committed happly
    subst heq
    exact covers_applyTransition N _ _ tr hv ih

/-- Witness for C1: the scenario registry covers `[0, 16)`, and still does
after a committed split of its first tablet. -/
theorem coverage_invariant_reachable_witness :
    covers 0 16
      (Registry.mk (applyTransition 1 scenarioEntry (Transition.split 0)) 1).tablets
      = true :=
  coverage_invariant_reachable 16 ⟨scenarioEntry, 0⟩
    ⟨applyTransition 1 scenarioEntry (Transition.split 0), 1⟩
    (Reachable.step 0 (Transition.split 0) (Reachable.refl _) (by decide))
    (by decide)

/-- C2: at every committed state reachable from a valid initial state,
a quiescent tablet (stage `none`, no migration recorded) has exactly `rf`
`current` replicas and no `target` replica; a tablet with an active
migration whose `cleanup` stage has not yet committed holds exactly
`rf + 1` replicas — `rf` still `current` plus one `target`; and no
committed state shows any replica count other than `rf` or `rf + 1`. -/
theorem replica_count_invariant_reachable (rf : Nat) (r0 r : Registry)
    (hr : Reachable r0 r) (h0 : allInv rf r0.tablets = true) :
    ∀ t ∈ r.tablets,
      (t.stage = Stage.none → curCount t.replicas = rf ∧ tgtCount t.replicas = 0) ∧
      ((t.stage = Stage.preparing ∨ t.stage = Stage.streaming ∨
          t.stage = Stage.write_both_read_new) →
        curCount t.replicas = rf ∧ tgtCount t.replicas = 1) ∧
      (curCount t.replicas + tgtCount t.replicas = rf ∨
        curCount t.replicas + tgtCount t.replicas = rf + 1) := by
  intro t ht
  exact replicaInv_spec rf t
    ((allInv_iff rf r.tablets).1 (allInv_reachable rf r0 r hr h0) t ht)

/-- Witness for C2: in the scenario registry (RF = 3), the first tablet is
quiescent and has exactly 3 `current` replicas and no `target`. -/
theorem replica_count_invariant_reachable_witness :
    curCount threeNodeReplicas = 3 ∧ tgtCount threeNodeReplicas = 0 :=
  (replica_count_invariant_reachable 3 ⟨scenarioEntry, 0⟩ ⟨scenarioEntry, 0⟩
    (Reachable.refl _) (by decide)
    ⟨0, 0, 4, threeNodeReplicas, Stage.none, 0⟩ (by decide)).1 rfl

/-- C3: `apply(table, epoch, transition)` commits a validated transition
exactly when `epoch` equals the registry's current epoch, returning a
snapshot with a strictly greater committed epoch; on an epoch mismatch it
returns `Conflict` (leaving nothing changed — the registry value is not
touched); and of two proposals racing at the same epoch, the one applied
second receives `Conflict`. -/
theorem apply_epoch_guard (r : Registry) (e : Nat) (t1 t2 : Transition)
    (hv1 : validTransition r.tablets t1 = true) :
    (e = r.epoch →
      r.apply e t1 = ApplyResult.committed
          ⟨applyTransition (r.epoch + 1) r.tablets t1, r.epoch + 1⟩ ∧
        r.epoch < r.epoch + 1) ∧
    (e ≠ r.epoch → r.apply e t1 = ApplyResult.conflict) ∧
    (∀ r' : Registry, r.apply e t1 = ApplyResult.committed r' →
      r'.apply e t2 = ApplyResult.conflict) := by
  refine ⟨?_, ?_, ?_⟩
  · intro he
    subst he
    refine ⟨?_, by omega⟩
    simp [Registry.apply, hv1]
  · intro hne
    simp [Registry.apply, hne]
  · intro r' happly
    obtain ⟨hv, heq⟩ := apply_committed happly
    have he : e = r.epoch := by
      by_contra hne
      rw [show r.apply e t1 = ApplyResult.conflict by simp [Registry.apply, hne]]
        at happly
      exact ApplyResult.noConfusion happly
    subst heq
    simp [Registry.apply, he]

/-- Witness for C3: applying at a stale epoch returns `Conflict`. -/
theorem apply_epoch_guard_witness :
    (Registry.mk scenarioEntry 0).apply 1 (Transition.split 0) =
      ApplyResult.conflict :=
  (apply_epoch_guard ⟨scenarioEntry, 0⟩ 1 (Transition.split 0) (Transition.split 0)
    (by decide)).2.1 (by decide)

/-- C4: `cancelled` is committed only from `preparing`, `streaming`, or
`write_both_read_new`; a cancellation request once `cleanup` (or `done`)
has committed is rejected as irreversible; and no stage reachable by
committed stage changes from `cleanup` is ever `cancelled`. -/
theorem cancelled_only_before_cleanup :
    (∀ s : Stage, allowedCommit s Stage.cancelled = true ↔
      (s = Stage.preparing ∨ s = Stage.streaming ∨ s = Stage.write_both_read_new)) ∧
    requestCancel Stage.cleanup = CancelReply.irreversible ∧
    requestCancel Stage.done = CancelReply.irreversible ∧
    (∀ s : Stage, StageReach Stage.cleanup s → s ≠ Stage.cancelled) := by
  refine ⟨?_, rfl, rfl, ?_⟩
  · intro s
    cases s <;> simp [allowedCommit]
  · intro s hs
    rcases stageReach_from_cleanup hs with h | h <;> subst h <;> simp

/-- Witness for C4: `done` is reachable from `cleanup` and is not
`cancelled`. -/
theorem cancelled_only_before_cleanup_witness :
    Stage.done ≠ Stage.cancelled :=
  cancelled_only_before_cleanup.2.2.2 Stage.done
    (StageReach.step (StageReach.refl Stage.cleanup) rfl)

/-- C8: splitting a tablet at the midpoint of its range and merging the two
halves back together reproduces exactly the original tablet — in
particular the original token range and the original replica set — and
both halves inherit the tablet's replica set. -/
theorem split_merge_round_trip (t : Tablet) :
    mergeTablets (splitTablet t).1 (splitTablet t).2 = t ∧
    (splitTablet t).1.replicas = t.replicas ∧
    (splitTablet t).2.replicas = t.replicas ∧
    (splitTablet t).1.start = t.start ∧
    (splitTablet t).1.stop = (t.start + t.stop) / 2 ∧
    (splitTablet t).2.start = (t.start + t.stop) / 2 ∧
    (splitTablet t).2.stop = t.stop :=
  ⟨rfl, rfl, rfl, rfl, rfl, rfl, rfl⟩

/-- C10: with tablets enabled, Counters and CDC are unavailable;
Materialized Views and Secondary Indexes are unavailable unless the
experimental views-with-tablets flag is set; with tablets disabled all four
are available; ALTER cannot change a keyspace's tablets setting — the only
way is dropping and recreating the keyspace. -/
theorem tablets_feature_restrictions :
    (∀ exp : Bool,
      featureAvailable true exp Feature.counters = false ∧
      featureAvailable true exp Feature.changeDataCapture = false) ∧
    (featureAvailable true false Feature.materializedViews = false ∧
      featureAvailable true false Feature.secondaryIndexes = false) ∧
    (featureAvailable true true Feature.materializedViews = true ∧
      featureAvailable true true Feature.secondaryIndexes = true) ∧
    (∀ f : Feature, featureAvailable false false f = true) ∧
    (∀ ks : KeyspaceOpts, ∀ newRF : Option Nat, ∀ b : Bool,
      b ≠ ks.tabletsEnabled → alterKeyspace ks newRF (some b) = AlterResult.rejected) ∧
    (∀ rf : Nat, ∀ b : Bool, (dropAndRecreate rf b).tabletsEnabled = b) := by
  refine ⟨?_, ⟨rfl, rfl⟩, ⟨rfl, rfl⟩, ?_, ?_, ?_⟩
  · intro exp
    exact ⟨rfl, rfl⟩
  · intro f
    cases f <;> rfl
  · intro ks newRF b hb
    cases b <;> cases hks : ks.tabletsEnabled <;>
      simp [alterKeyspace, hks] at hb ⊢
  · intro rf b
    rfl

/-- Witness for C10: altering a tablets-enabled keyspace to disable tablets
is rejected. -/
theorem tablets_feature_restrictions_witness :
    alterKeyspace ⟨3, true⟩ Option.none (some false) = AlterResult.rejected :=
  tablets_feature_restrictions.2.2.2.2.1 ⟨3, true⟩ Option.none false (by decide)

lemma commitsOf_append (a b : List Event) :
    commitsOf (a ++ b) = commitsOf a ++ commitsOf b := by
  simp [commitsOf, List.filterMap_append]

lemma commitsOf_cons_commit (s : Stage) (evs : List Event) :
    commitsOf (Event.commit s :: evs) = s :: commitsOf evs := by
  simp [commitsOf]

lemma commitsOf_attemptEvents (k : Nat) : commitsOf (attemptEvents k) = [] := by
  induction k with
  | zero => rfl
  | succ k ih => simpa [attemptEvents, commitsOf] using ih

lemma effectsOk_attemptEvents (k : Nat) (rest : List Event) (cl : Bool) :
    effectsOk (attemptEvents k ++ rest) true cl = effectsOk rest true cl := by
  induction k with
  | zero => rfl
  | succ k ih => simpa [attemptEvents, effectsOk] using ih

lemma commit_notMem_attemptEvents (k : Nat) (s : Stage) :
    Event.commit s ∉ attemptEvents k := by
  induction k with
  | zero => simp [attemptEvents]
  | succ k ih => simpa [attemptEvents] using ih

lemma attemptsUsed_le (tries : Nat) (outcomes : List Bool) :
    attemptsUsed tries outcomes ≤ tries := by
  induction tries generalizing outcomes with
  | zero => simp [attemptsUsed]
  | succ t ih =>
    cases outcomes with
    | nil => simp [attemptsUsed]
    | cons o os =>
      have := ih os
      by_cases ho : o = true
      · simp [attemptsUsed, ho]
      · rw [Bool.not_eq_true] at ho
        simp only [attemptsUsed, ho, Bool.false_eq_true, if_false]
        omega

/-- C5: in every full migration run the stage commits follow the fixed
order `none → preparing → streaming → write_both_read_new → cleanup →
done` (degrading to `cancelled` only from the in-flight stages), with no
stage skipped or committed out of order; and every local side effect
(streaming start, file deletion) happens only after the commit of its
stage. -/
theorem stage_commit_order_and_gating (tries : Nat) (outcomes : List Bool) :
    chainFrom Stage.none (commitsOf (migRun tries outcomes).2) = true ∧
    effectsOk (migRun tries outcomes).2 false false = true := by
  unfold migRun resumeFrom
  by_cases hs : firstSuccess tries outcomes = true
  · constructor
    · simp only [runStreamingPhase, hs, if_true]
      rw [commitsOf_cons_commit, commitsOf_cons_commit, commitsOf_append,
        commitsOf_attemptEvents]
      decide
    · simp only [runStreamingPhase, hs, if_true, effectsOk]
      simp only [show (Stage.preparing == Stage.streaming) = false from rfl,
        show (Stage.preparing == Stage.cleanup) = false from rfl,
        show (Stage.streaming == Stage.streaming) = true from rfl,
        show (Stage.streaming == Stage.cleanup) = false from rfl,
        Bool.or_false, Bool.or_true, Bool.false_or]
      rw [effectsOk_attemptEvents]
      simp [successTail, effectsOk]
  · rw [Bool.not_eq_true] at hs
    constructor
    · simp only [runStreamingPhase, hs, Bool.false_eq_true, if_false]
      rw [commitsOf_cons_commit, commitsOf_cons_commit, commitsOf_append,
        commitsOf_attemptEvents]
      decide
    · simp only [runStreamingPhase, hs, Bool.false_eq_true, if_false, effectsOk]
      simp only [show (Stage.preparing == Stage.streaming) = false from rfl,
        show (Stage.preparing == Stage.cleanup) = false from rfl,
        show (Stage.streaming == Stage.streaming) = true from rfl,
        show (Stage.streaming == Stage.cleanup) = false from rfl,
        Bool.or_false, Bool.or_true, Bool.false_or]
      rw [effectsOk_attemptEvents]
      simp [effectsOk]

/-- C6: the Streamer is retried at most `tries` times; exhausted retries
always terminate the migration in `cancelled`; and cancelling a migration
begun on a quiescent tablet leaves the tablet's original replica placement,
range, and quiescent stage exactly as they were. -/
theorem bounded_retry_cancel (tries : Nat) (outcomes : List Bool)
    (t : Tablet) (ep n s ep2 : Nat) (hq : tgtCount t.replicas = 0) :
    attemptsUsed tries outcomes ≤ tries ∧
    (firstSuccess tries outcomes = false →
      (resumeFrom Stage.streaming tries outcomes).1 = Stage.cancelled) ∧
    (tabletMigCancel ep2 (tabletMigStart ep n s t)).replicas = t.replicas ∧
    (tabletMigCancel ep2 (tabletMigStart ep n s t)).stage = Stage.none ∧
    (tabletMigCancel ep2 (tabletMigStart ep n s t)).start = t.start ∧
    (tabletMigCancel ep2 (tabletMigStart ep n s t)).stop = t.stop := by
  refine ⟨attemptsUsed_le tries outcomes, ?_, ?_, rfl, rfl, rfl⟩
  · intro hf
    simp [resumeFrom, runStreamingPhase, hf]
  · show dropTargets (t.replicas ++ [⟨n, s, Role.target⟩]) = t.replicas
    have h1 : dropTargets (t.replicas ++ [⟨n, s, Role.target⟩]) =
        dropTargets t.replicas ++ dropTargets [⟨n, s, Role.target⟩] := by
      simp [dropTargets, List.filter_append]
    have h2 : dropTargets [(⟨n, s, Role.target⟩ : Replica)] = [] := rfl
    rw [h1, h2, List.append_nil]
    exact dropTargets_of_quiescent t.replicas hq

/-- Witness for C6: cancelling a migration started on a quiescent scenario
tablet restores its replica set. -/
theorem bounded_retry_cancel_witness :
    (tabletMigCancel 2 (tabletMigStart 1 3 0
        ⟨0, 0, 4, threeNodeReplicas, Stage.none, 0⟩)).replicas =
      (⟨0, 0, 4, threeNodeReplicas, Stage.none, 0⟩ : Tablet).replicas :=
  (bounded_retry_cancel 2 [false, false]
    ⟨0, 0, 4, threeNodeReplicas, Stage.none, 0⟩ 1 3 0 2 (by decide)).2.2.1

/-- C7: resuming a migration whose last committed stage is `streaming`
never re-commits `preparing`, always ends in `done` or `cancelled`, and any
further resume from that terminal stage is a no-op returning the same
terminal stage — so repeated resumption converges. -/
theorem resume_streaming_no_preparing (tries : Nat) (outcomes : List Bool) :
    Event.commit Stage.preparing ∉ (resumeFrom Stage.streaming tries outcomes).2 ∧
    ((resumeFrom Stage.streaming tries outcomes).1 = Stage.done ∨
      (resumeFrom Stage.streaming tries outcomes).1 = Stage.cancelled) ∧
    (∀ tries2 outcomes2,
      resumeFrom (resumeFrom Stage.streaming tries outcomes).1 tries2 outcomes2 =
        ((resumeFrom Stage.streaming tries outcomes).1, [])) := by
  by_cases hs : firstSuccess tries outcomes = true
  · have htr : resumeFrom Stage.streaming tries outcomes =
        (Stage.done, attemptEvents (attemptsUsed tries outcomes) ++ successTail) := by
      simp [resumeFrom, runStreamingPhase, hs]
    rw [htr]
    refine ⟨?_, Or.inl rfl, ?_⟩
    · simp only [List.mem_append, successTail]
      intro hmem
      rcases hmem with hmem | hmem
      · exact commit_notMem_attemptEvents _ _ hmem
      · simp at hmem
    · intro tries2 outcomes2
      rfl
  · rw [Bool.not_eq_true] at hs
    have htr : resumeFrom Stage.streaming tries outcomes =
        (Stage.cancelled,
          attemptEvents (attemptsUsed tries outcomes) ++
            [Event.commit Stage.cancelled]) := by
      simp [resumeFrom, runStreamingPhase, hs]
    rw [htr]
    refine ⟨?_, Or.inr rfl, ?_⟩
    · simp only [List.mem_append]
      intro hmem
      rcases hmem with hmem | hmem
      · exact commit_notMem_attemptEvents _ _ hmem
      · simp at hmem
    · intro tries2 outcomes2
      rfl

/-- Witness for C7: a resume from `streaming` with a succeeding second
attempt ends in `done` without re-committing `preparing`. -/
theorem resume_streaming_no_preparing_witness :
    (resumeFrom Stage.streaming 2 [false, true]).1 = Stage.done ∨
      (resumeFrom Stage.streaming 2 [false, true]).1 = Stage.cancelled :=
  (resume_streaming_no_preparing 2 [false, true]).2.1

lemma getD_set_self : ∀ (l : List Nat) (j y : Nat), j < l.length →
    (l.set j y).getD j 0 = y := by
  intro l
  induction l with
  | nil => intro j y h; simp at h
  | cons a l ih =>
    intro j y h
    cases j with
    | zero => rfl
    | succ j =>
      simp only [List.set_cons_succ, List.getD_cons_succ]
      exact ih j y (by simpa using h)

lemma idxOfMin_lt_length : ∀ (l : List Nat), l ≠ [] → idxOfMin l < l.length
  | [], h => absurd rfl h
  | [_], _ => by simp [idxOfMin]
  | x :: y :: rest, _ => by
    have hk := idxOfMin_lt_length (y :: rest) (by simp)
    by_cases hc : (y :: rest).getD (idxOfMin (y :: rest)) 0 < x
    · simp only [List.length_cons] at hk
      simp only [idxOfMin, List.length_cons]
      rw [if_pos hc]
      omega
    · simp only [idxOfMin, List.length_cons]
      rw [if_neg hc]
      omega

lemma lbRound_progress (eps : Nat) (loads : List Nat) :
    lbRound eps loads = [] ∨ applyRound eps loads ≠ loads := by
  by_cases hg : (idxOfMax loads != idxOfMin loads &&
      decide (imbalance (moveLoad loads (idxOfMax loads) (idxOfMin loads)) + eps <
        imbalance loads)) = true
  · right
    have hlb : lbRound eps loads = [⟨idxOfMax loads, idxOfMin loads⟩] := by
      simp only [lbRound]
      rw [if_pos hg]
    have hnonempty : loads ≠ [] := by
      intro h
      subst h
      simp [idxOfMax, idxOfMin] at hg
    have hlen : idxOfMin loads < loads.length := idxOfMin_lt_length loads hnonempty
    have happ : applyRound eps loads =
        moveLoad loads (idxOfMax loads) (idxOfMin loads) := by
      simp only [applyRound, hlb]
    rw [happ]
    intro heq
    have h1 : (moveLoad loads (idxOfMax loads) (idxOfMin loads)).getD
        (idxOfMin loads) 0 = loads.getD (idxOfMin loads) 0 + 1 := by
      simp only [moveLoad]
      exact getD_set_self _ _ _ (by simpa using hlen)
    rw [heq] at h1
    omega
  · left
    simp only [lbRound]
    rw [if_neg hg]

/-- C9: when the registry snapshot and load observations do not change
between rounds (applying one round's proposals leaves the load vector
unchanged), two consecutive Load Balancer rounds propose zero actions —
a migration is proposed only when the imbalance reduction beats the
hysteresis epsilon; in particular, for the §8 scenario — 4 tablets, RF = 3,
3 equally loaded nodes — a round proposes no migrations for any epsilon. -/
theorem lb_no_oscillation (eps : Nat) (loads : List Nat)
    (hstable : applyRound eps loads = loads) :
    lbRound eps loads = [] ∧ lbRound eps (applyRound eps loads) = [] ∧
    (∀ e : Nat, lbRound e (loadsOf scenarioEntry 3) = []) := by
  have hz : lbRound eps loads = [] := by
    rcases lbRound_progress eps loads with h | h
    · exact h
    · exact absurd hstable h
  refine ⟨hz, ?_, ?_⟩
  · rw [hstable]
    exact hz
  · intro e
    have hsc : loadsOf scenarioEntry 3 = [4, 4, 4] := by decide
    rw [hsc]
    rfl

/-- Witness for C9: the balanced three-node load vector is stable, and the
round on it proposes nothing. -/
theorem lb_no_oscillation_witness : lbRound 0 [4, 4, 4] = [] :=
  (lb_no_oscillation 0 [4, 4, 4] (by decide)).1

end Tablets
